import Mathlib

/-
Shallow embedding of the directed graph engine of `directed.go` (package
`graph`).  Go maps are modelled as association lists with Go's assignment
semantics (replace the binding when the key is present, append otherwise);
Go's multi-value returns `(value, error)` are modelled as pairs whose second
component is an `Option GraphError`.  Map iteration order in Go is
unspecified, so iterating a map is modelled by walking the association list.
-/

namespace GraphSpec

variable {K V T : Type}

/-- Go map read `v, ok := m[k]`: `some v` when the key is bound, else `none`. -/
def lookup [DecidableEq K] : List (K × V) → K → Option V
  | [], _ => none
  | (k', v) :: rest, k => if k' = k then some v else lookup rest k

/-- Go map assignment `m[k] = v`: replace the binding when the key is present,
append otherwise. -/
def setKey [DecidableEq K] : List (K × V) → K → V → List (K × V)
  | [], k, v => [(k, v)]
  | (k', v') :: rest, k, v =>
    if k' = k then (k, v) :: rest else (k', v') :: setKey rest k v

/-- Read of a nested Go map `m[a][b]` (missing outer key reads as an empty
inner map). -/
def lookup2 [DecidableEq K] (m : List (K × List (K × V))) (a b : K) : Option V :=
  match lookup m a with
  | none => none
  | some inner => lookup inner b

/-- The `Edge` record used by `directed.go`: source value, target value and an
integer weight. -/
structure Edge (T : Type) where
  Source : T
  Target : T
  Weight : Int
  deriving DecidableEq

/-- Modelled from the spec: the trait configuration (`properties` with its
`isAcyclic` flag) is read by `directed.go` at line 61 but its declaration is
outside the given sources.  Per the spec it is an immutable flag set at
construction governing whether cycle-creating edges are rejected. -/
structure Properties where
  isAcyclic : Bool
  deriving DecidableEq

/-- The error kinds produced by the engine, one per distinct `fmt.Errorf`
site in `directed.go`; `cycleCheckFailed` models the `%w` wrapping at line
64. -/
inductive GraphError (K : Type) where
  | sourceNotFound (hash : K)
  | targetNotFound (hash : K)
  | edgeAlreadyExists (sourceHash targetHash : K)
  | cycleCheckFailed (inner : GraphError K)
  | wouldCreateCycle (sourceHash targetHash : K)
  | startNotFound (hash : K)
  | vertexNotFound (hash : K)
  deriving DecidableEq

/-- The `directed[K, T]` struct of `directed.go`. -/
structure Directed (K T : Type) where
  hash : T → K
  properties : Properties
  vertices : List (K × T)
  edges : List (K × List (K × Edge T))
  outEdges : List (K × List (K × Edge T))
  inEdges : List (K × List (K × Edge T))

/-- `newDirected`: fresh engine with empty vertex and edge storage. -/
def newDirected (hash : T → K) (properties : Properties) : Directed K T :=
  { hash := hash, properties := properties,
    vertices := [], edges := [], outEdges := [], inEdges := [] }

/-- `(*directed).Vertex`: computes the hash of the value and stores the value
under it unconditionally (the Go method has no error return and performs no
presence check). -/
def Directed.Vertex [DecidableEq K] (d : Directed K T) (value : T) : Directed K T :=
  { d with vertices := setKey d.vertices (d.hash value) value }

/-- `(*directed).GetEdgeByHashes`: two-level read of the `edges` map; a missing
outer or inner key is the "absent" result, not an error. -/
def Directed.GetEdgeByHashes [DecidableEq K] (d : Directed K T)
    (sourceHash targetHash : K) : Option (Edge T) :=
  match lookup d.edges sourceHash with
  | none => none
  | some sourceEdges => lookup sourceEdges targetHash

/-- `(*directed).addEdge`: inserts the edge into `edges`, the forward index
`outEdges` (under source → target) and the reverse index `inEdges` (under
target → source), creating the missing inner maps first as the Go code does. -/
def Directed.addEdge [DecidableEq K] (d : Directed K T)
    (sourceHash targetHash : K) (edge : Edge T) : Directed K T :=
  { d with
    edges := setKey d.edges sourceHash
      (setKey ((lookup d.edges sourceHash).getD []) targetHash edge),
    outEdges := setKey d.outEdges sourceHash
      (setKey ((lookup d.outEdges sourceHash).getD []) targetHash edge),
    inEdges := setKey d.inEdges targetHash
      (setKey ((lookup d.inEdges targetHash).getD []) sourceHash edge) }

/-- `(*directed).predecessors`: the keys of the inner `inEdges` map of the
vertex, empty when the vertex has no reverse-index entry. -/
def Directed.predecessors [DecidableEq K] (d : Directed K T) (vertexHash : K) : List K :=
  match lookup d.inEdges vertexHash with
  | none => []
  | some inner => inner.map Prod.fst

/-- All keys occurring in any inner map of the reverse index; a finite
overapproximation of everything `predecessors` can ever return, used as the
termination measure of the cycle-check walk. -/
def Directed.predKeys [DecidableEq K] (d : Directed K T) : Finset K :=
  (d.inEdges.flatMap (fun p => p.2.map Prod.fst)).toFinset

/-- All keys occurring in any inner map of the forward index; everything the
traversals can ever push besides the start vertex. -/
def Directed.outKeys [DecidableEq K] (d : Directed K T) : Finset K :=
  (d.outEdges.flatMap (fun p => p.2.map Prod.fst)).toFinset

theorem lookup_mem [DecidableEq K] {m : List (K × V)} {k : K} {v : V}
    (h : lookup m k = some v) : (k, v) ∈ m := by
  induction m with
  | nil => simp [lookup] at h
  | cons p rest ih =>
    obtain ⟨k', v'⟩ := p
    by_cases hk : k' = k
    · subst hk
      simp [lookup] at h
      simp [h]
    · simp [lookup, hk] at h
      exact List.mem_cons_of_mem _ (ih h)

theorem predecessors_subset_predKeys [DecidableEq K] (d : Directed K T) (h x : K)
    (hx : x ∈ d.predecessors h) : x ∈ d.predKeys := by
  unfold Directed.predecessors at hx
  cases hl : lookup d.inEdges h with
  | none => rw [hl] at hx; simp at hx
  | some inner =>
    rw [hl] at hx
    unfold Directed.predKeys
    simp only [List.mem_toFinset, List.mem_flatMap]
    exact ⟨(h, inner), lookup_mem hl, hx⟩

theorem measure_skip_eq [DecidableEq K] (pk : Finset K) (c : K)
    (stack visited : List K) (hc : c ∈ visited) :
    ((pk ∪ stack.toFinset) \ visited.toFinset)
      = ((pk ∪ (c :: stack).toFinset) \ visited.toFinset) := by
  ext x
  simp only [Finset.mem_sdiff, Finset.mem_union, List.mem_toFinset,
    List.toFinset_cons, Finset.mem_insert]
  constructor
  · rintro ⟨h1, h2⟩
    exact ⟨by tauto, h2⟩
  · rintro ⟨h1, h2⟩
    refine ⟨?_, h2⟩
    rcases h1 with h1 | h1 | h1
    · exact Or.inl h1
    · exact absurd (h1 ▸ hc) h2
    · exact Or.inr h1

theorem measure_visit_lt [DecidableEq K] (pk : Finset K) (c : K)
    (nbrs stack visited : List K) (hn : ∀ x ∈ nbrs, x ∈ pk) (hc : c ∉ visited) :
    ((pk ∪ (nbrs ++ stack).toFinset) \ (c :: visited).toFinset).card
      < ((pk ∪ (c :: stack).toFinset) \ visited.toFinset).card := by
  apply Finset.card_lt_card
  rw [Finset.ssubset_def]
  constructor
  · intro x hx
    simp only [Finset.mem_sdiff, Finset.mem_union, List.mem_toFinset,
      List.toFinset_append, List.toFinset_cons, Finset.mem_insert] at hx ⊢
    obtain ⟨h1, h2⟩ := hx
    push_neg at h2
    refine ⟨?_, h2.2⟩
    rcases h1 with h1 | h1 | h1
    · exact Or.inl h1
    · exact Or.inl (hn x h1)
    · exact Or.inr (Or.inr h1)
  · intro hsub
    have hcmem : c ∈ (pk ∪ (c :: stack).toFinset) \ visited.toFinset := by
      simp [hc]
    have := hsub hcmem
    simp at this

/-- The iterative cycle-check walk of `CreatesCycleByHashes` (lines 202-223 of
`directed.go`): pop a vertex from the worklist; skip it when already visited;
report a cycle when it is the target; otherwise mark it visited and push all
its predecessors.  The Go code pops from the tail of its slice and map
iteration order is unspecified, so the list here plays the slice backwards;
the visited/worklist discipline is identical. -/
def cycleLoop [DecidableEq K] (d : Directed K T) (targetHash : K) :
    List K → List K → Bool
  | [], _ => false
  | currentHash :: stack, visited =>
    if hv : currentHash ∈ visited then
      cycleLoop d targetHash stack visited
    else if heq : currentHash = targetHash then
      true
    else
      cycleLoop d targetHash (d.predecessors currentHash ++ stack)
        (currentHash :: visited)
termination_by stack visited =>
  (((d.predKeys ∪ stack.toFinset) \ visited.toFinset).card, stack.length)
decreasing_by
  · rw [measure_skip_eq d.predKeys currentHash stack visited hv]
    exact Prod.Lex.right _ (Nat.lt_succ_self _)
  · exact Prod.Lex.left _ _
      (measure_visit_lt d.predKeys currentHash (d.predecessors currentHash)
        stack visited (predecessors_subset_predKeys d currentHash) hv)

/-- `(*directed).CreatesCycleByHashes`: errors when either endpoint is absent,
reports a self-loop immediately, and otherwise walks backwards from the source
along predecessor edges looking for the target. -/
def Directed.CreatesCycleByHashes [DecidableEq K] (d : Directed K T)
    (sourceHash targetHash : K) : Bool × Option (GraphError K) :=
  match lookup d.vertices sourceHash with
  | none => (false, some (.sourceNotFound sourceHash))
  | some _ =>
    match lookup d.vertices targetHash with
    | none => (false, some (.targetNotFound targetHash))
    | some _ =>
      if sourceHash = targetHash then (true, none)
      else (cycleLoop d targetHash [sourceHash] [], none)

/-- `(*directed).WeightedEdgeByHashes` (lines 45-80 of `directed.go`): check
both endpoints exist, reject a duplicate ordered pair, run the cycle pre-check
when the graph is acyclic, and only then insert via `addEdge`.  Returns the
new engine state paired with the error slot of the Go return. -/
def Directed.WeightedEdgeByHashes [DecidableEq K] (d : Directed K T)
    (sourceHash targetHash : K) (weight : Int) :
    Directed K T × Option (GraphError K) :=
  match lookup d.vertices sourceHash with
  | none => (d, some (.sourceNotFound sourceHash))
  | some source =>
    match lookup d.vertices targetHash with
    | none => (d, some (.targetNotFound targetHash))
    | some target =>
      if (d.GetEdgeByHashes sourceHash targetHash).isSome then
        (d, some (.edgeAlreadyExists sourceHash targetHash))
      else if d.properties.isAcyclic then
        match d.CreatesCycleByHashes sourceHash targetHash with
        | (_, some e) => (d, some (.cycleCheckFailed e))
        | (true, none) => (d, some (.wouldCreateCycle sourceHash targetHash))
        | (false, none) =>
          (d.addEdge sourceHash targetHash
            { Source := source, Target := target, Weight := weight }, none)
      else
        (d.addEdge sourceHash targetHash
          { Source := source, Target := target, Weight := weight }, none)

/-- `(*directed).DegreeByHash`: error for an absent vertex, otherwise the entry
count of the reverse-index inner map plus that of the forward-index inner map
(each contributing 0 when missing), accumulated as in the Go code. -/
def Directed.DegreeByHash [DecidableEq K] (d : Directed K T) (vertexHash : K) :
    Nat × Option (GraphError K) :=
  match lookup d.vertices vertexHash with
  | none => (0, some (.vertexNotFound vertexHash))
  | some _ =>
    let degreeIn : Nat :=
      match lookup d.inEdges vertexHash with
      | none => 0
      | some inEdges => inEdges.length
    let degreeOut : Nat :=
      match lookup d.outEdges vertexHash with
      | none => degreeIn
      | some outEdges => degreeIn + outEdges.length
    (degreeOut, none)

/-- The keys of the inner `outEdges` map of a vertex: what
`for adjacency := range d.outEdges[currentHash]` iterates over (empty when the
vertex has no forward-index entry). -/
def Directed.outNeighbors [DecidableEq K] (d : Directed K T) (vertexHash : K) : List K :=
  match lookup d.outEdges vertexHash with
  | none => []
  | some inner => inner.map Prod.fst

theorem outNeighbors_subset_outKeys [DecidableEq K] (d : Directed K T) (h x : K)
    (hx : x ∈ d.outNeighbors h) : x ∈ d.outKeys := by
  unfold Directed.outNeighbors at hx
  cases hl : lookup d.outEdges h with
  | none => rw [hl] at hx; simp at hx
  | some inner =>
    rw [hl] at hx
    unfold Directed.outKeys
    simp only [List.mem_toFinset, List.mem_flatMap]
    exact ⟨(h, inner), lookup_mem hl, hx⟩

/-- The DFS worklist loop of `DFSByHash` (lines 118-135 of `directed.go`),
returning the trace of vertices on which the visit callback is invoked, in
invocation order: pop a vertex; when unvisited, invoke the callback (stopping
the whole traversal when it returns true, before marking), mark it visited and
push all forward neighbors.  The Go slice is used LIFO from its tail; the list
here is used LIFO from its head, which is the same worklist discipline. -/
def dfsLoop [DecidableEq K] [Inhabited T] (d : Directed K T) (visit : T → Bool) :
    List K → List K → List K
  | [], _ => []
  | currentHash :: stack, visited =>
    if hv : currentHash ∈ visited then
      dfsLoop d visit stack visited
    else if visit ((lookup d.vertices currentHash).getD default) then
      [currentHash]
    else
      currentHash :: dfsLoop d visit (d.outNeighbors currentHash ++ stack)
        (currentHash :: visited)
termination_by stack visited =>
  (((d.outKeys ∪ stack.toFinset) \ visited.toFinset).card, stack.length)
decreasing_by
  · rw [measure_skip_eq d.outKeys currentHash stack visited hv]
    exact Prod.Lex.right _ (Nat.lt_succ_self _)
  · exact Prod.Lex.left _ _
      (measure_visit_lt d.outKeys currentHash (d.outNeighbors currentHash)
        stack visited (outNeighbors_subset_outKeys d currentHash) hv)

/-- `(*directed).DFSByHash`: error for an absent start vertex; otherwise run
the worklist loop seeded with the start vertex and an empty visited set.  The
first component is the (ghost) trace of callback invocations; the second is
the Go error return. -/
def Directed.DFSByHash [DecidableEq K] [Inhabited T] (d : Directed K T)
    (startHash : K) (visit : T → Bool) : List K × Option (GraphError K) :=
  match lookup d.vertices startHash with
  | none => ([], some (.startNotFound startHash))
  | some _ => (dfsLoop d visit [startHash] [], none)

/-- The body of BFS neighbor expansion (lines 168-173 of `directed.go`): walk
the forward neighbors in order, keeping those not yet visited and marking each
kept one immediately, so a key occurring twice is kept once.  Returns the kept
keys in order; the caller appends them to both the queue and the visited
set, which is exactly the net effect of the Go loop. -/
def newKeys [DecidableEq K] (visited : List K) : List K → List K
  | [] => []
  | n :: ns =>
    if n ∈ visited then newKeys visited ns
    else n :: newKeys (n :: visited) ns

theorem newKeys_subset [DecidableEq K] :
    ∀ (ns visited : List K) (x : K), x ∈ newKeys visited ns → x ∈ ns := by
  intro ns
  induction ns with
  | nil => intro visited x hx; simp [newKeys] at hx
  | cons n ns ih =>
    intro visited x hx
    by_cases hn : n ∈ visited
    · simp only [newKeys, if_pos hn] at hx
      exact List.mem_cons_of_mem _ (ih visited x hx)
    · simp only [newKeys, if_neg hn, List.mem_cons] at hx
      rcases hx with hx | hx
      · exact hx ▸ List.mem_cons_self _ _
      · exact List.mem_cons_of_mem _ (ih (n :: visited) x hx)

theorem newKeys_not_visited [DecidableEq K] :
    ∀ (ns visited : List K) (x : K), x ∈ newKeys visited ns → x ∉ visited := by
  intro ns
  induction ns with
  | nil => intro visited x hx; simp [newKeys] at hx
  | cons n ns ih =>
    intro visited x hx
    by_cases hn : n ∈ visited
    · simp only [newKeys, if_pos hn] at hx
      exact ih visited x hx
    · simp only [newKeys, if_neg hn, List.mem_cons] at hx
      rcases hx with hx | hx
      · exact hx ▸ hn
      · intro hxv
        exact ih (n :: visited) x hx (List.mem_cons_of_mem _ hxv)

theorem newKeys_nodup [DecidableEq K] :
    ∀ (ns visited : List K), (newKeys visited ns).Nodup := by
  intro ns
  induction ns with
  | nil => intro visited; simp [newKeys]
  | cons n ns ih =>
    intro visited
    by_cases hn : n ∈ visited
    · simp only [newKeys, if_pos hn]
      exact ih visited
    · simp only [newKeys, if_neg hn]
      refine List.nodup_cons.mpr ⟨?_, ih (n :: visited)⟩
      intro hmem
      exact newKeys_not_visited ns (n :: visited) n hmem (List.mem_cons_self _ _)

theorem newKeys_complete [DecidableEq K] :
    ∀ (ns visited : List K) (x : K), x ∈ ns →
      x ∈ visited ∨ x ∈ newKeys visited ns := by
  intro ns
  induction ns with
  | nil => intro visited x hx; simp at hx
  | cons n ns ih =>
    intro visited x hx
    rcases List.mem_cons.mp hx with hx | hx
    · subst hx
      by_cases hn : x ∈ visited
      · exact Or.inl hn
      · simp only [newKeys, if_neg hn]
        exact Or.inr (List.mem_cons_self _ _)
    · by_cases hn : n ∈ visited
      · simp only [newKeys, if_pos hn]
        exact ih visited x hx
      · simp only [newKeys, if_neg hn]
        rcases ih (n :: visited) x hx with hv | hv
        · rcases List.mem_cons.mp hv with hv | hv
          · exact Or.inr (hv ▸ List.mem_cons_self _ _)
          · exact Or.inl hv
        · exact Or.inr (List.mem_cons_of_mem _ hv)

theorem bfs_measure_lt [DecidableEq K] (ok : Finset K) (visited added : List K)
    (hsub : ∀ x ∈ added, x ∈ ok) (hnv : ∀ x ∈ added, x ∉ visited)
    (hne : added ≠ []) :
    (ok \ (visited ++ added).toFinset).card < (ok \ visited.toFinset).card := by
  apply Finset.card_lt_card
  rw [Finset.ssubset_def]
  constructor
  · intro x hx
    simp only [Finset.mem_sdiff, List.toFinset_append, Finset.mem_union,
      List.mem_toFinset] at hx ⊢
    exact ⟨hx.1, fun hv => hx.2 (Or.inl hv)⟩
  · intro hsubset
    obtain ⟨a, ha⟩ := List.exists_mem_of_ne_nil added hne
    have hamem : a ∈ ok \ visited.toFinset := by
      simp only [Finset.mem_sdiff, List.mem_toFinset]
      exact ⟨hsub a ha, hnv a ha⟩
    have := hsubset hamem
    simp only [Finset.mem_sdiff, List.toFinset_append, Finset.mem_union,
      List.mem_toFinset] at this
    exact this.2 (Or.inr ha)

/-- The BFS queue loop of `BFSByHash` (lines 157-175 of `directed.go`),
returning the trace of vertices on which the visit callback is invoked, in
invocation order: dequeue from the front (every queued vertex was already
marked visited at enqueue time), invoke the callback (stopping the traversal
when it returns true), then mark and enqueue the not-yet-visited forward
neighbors. -/
def bfsLoop [DecidableEq K] [Inhabited T] (d : Directed K T) (visit : T → Bool) :
    List K → List K → List K
  | [], _ => []
  | currentHash :: queue, visited =>
    if visit ((lookup d.vertices currentHash).getD default) then
      [currentHash]
    else
      currentHash :: bfsLoop d visit
        (queue ++ newKeys visited (d.outNeighbors currentHash))
        (visited ++ newKeys visited (d.outNeighbors currentHash))
termination_by queue visited =>
  ((d.outKeys \ visited.toFinset).card, queue.length)
decreasing_by
  by_cases hadd : newKeys visited (d.outNeighbors currentHash) = []
  · rw [hadd]
    simp only [List.append_nil]
    exact Prod.Lex.right _ (Nat.lt_succ_self _)
  · exact Prod.Lex.left _ _
      (bfs_measure_lt d.outKeys visited _
        (fun x hx => outNeighbors_subset_outKeys d currentHash x
          (newKeys_subset _ _ x hx))
        (fun x hx => newKeys_not_visited _ _ x hx) hadd)

/-- `(*directed).BFSByHash`: error for an absent start vertex; otherwise mark
the start visited, enqueue it, and run the queue loop.  The first component is
the (ghost) trace of callback invocations; the second is the Go error
return. -/
def Directed.BFSByHash [DecidableEq K] [Inhabited T] (d : Directed K T)
    (startHash : K) (visit : T → Bool) : List K × Option (GraphError K) :=
  match lookup d.vertices startHash with
  | none => ([], some (.startNotFound startHash))
  | some _ => (bfsLoop d visit [startHash] [startHash], none)

/-- One backward step: `b` is listed among the predecessors of `a`, i.e. the
reverse index records an edge from `b` to `a`. -/
def predStep [DecidableEq K] (d : Directed K T) (a b : K) : Prop :=
  b ∈ d.predecessors a

/-- Reachability by following reverse-adjacency (predecessor) edges, the
relation the cycle pre-check explores. -/
def PredReach [DecidableEq K] (d : Directed K T) : K → K → Prop :=
  Relation.ReflTransGen (predStep d)

/-- One forward step: `b` is a forward (outgoing) neighbor of `a`. -/
def outStep [DecidableEq K] (d : Directed K T) (a b : K) : Prop :=
  b ∈ d.outNeighbors a

/-- Reachability by following forward (outgoing) edges, the relation the
traversals explore. -/
def OutReach [DecidableEq K] (d : Directed K T) : K → K → Prop :=
  Relation.ReflTransGen (outStep d)

theorem lookup_setKey_self [DecidableEq K] (m : List (K × V)) (k : K) (v : V) :
    lookup (setKey m k v) k = some v := by
  induction m with
  | nil => simp [setKey, lookup]
  | cons p rest ih =>
    obtain ⟨k', v'⟩ := p
    by_cases hk : k' = k
    · simp [setKey, hk, lookup]
    · simp [setKey, hk, lookup, ih]

theorem lookup_setKey_ne [DecidableEq K] (m : List (K × V)) (k q : K) (v : V)
    (h : q ≠ k) :
    lookup (setKey m k v) q = lookup m q := by
  induction m with
  | nil => simp [setKey, lookup, Ne.symm h]
  | cons p rest ih =>
    obtain ⟨k', v'⟩ := p
    by_cases hk : k' = k
    · subst hk
      have hq : ¬ (k' = q) := fun hh => h (hh ▸ rfl)
      simp [setKey, lookup, hq]
    · by_cases hq : k' = q
      · simp [setKey, hk, lookup, hq, h]
      · simp [setKey, hk, lookup, hq, ih]

theorem lookup2_setKey_self [DecidableEq K] (m : List (K × List (K × V)))
    (a b : K) (v : V) :
    lookup2 (setKey m a (setKey ((lookup m a).getD []) b v)) a b = some v := by
  unfold lookup2
  rw [lookup_setKey_self]
  exact lookup_setKey_self _ _ _

theorem getEdgeByHashes_eq_lookup2 [DecidableEq K] (d : Directed K T)
    (s t : K) :
    d.GetEdgeByHashes s t = lookup2 d.edges s t := by
  unfold Directed.GetEdgeByHashes lookup2
  cases lookup d.edges s <;> rfl

theorem addEdge_lookup_edges [DecidableEq K] (d : Directed K T) (s t : K)
    (e : Edge T) :
    lookup2 (d.addEdge s t e).edges s t = some e :=
  lookup2_setKey_self d.edges s t e

theorem addEdge_lookup_out [DecidableEq K] (d : Directed K T) (s t : K)
    (e : Edge T) :
    lookup2 (d.addEdge s t e).outEdges s t = some e :=
  lookup2_setKey_self d.outEdges s t e

theorem addEdge_lookup_in [DecidableEq K] (d : Directed K T) (s t : K)
    (e : Edge T) :
    lookup2 (d.addEdge s t e).inEdges t s = some e :=
  lookup2_setKey_self d.inEdges t s e

/-- C1: the claim says a second vertex add with an already-present identifier
fails with AlreadyExists and leaves the stored value unchanged.  The code's
`Vertex` method has no error return at all and unconditionally overwrites the
stored value.  Evaluation at the failing input: with a constant hash, adding
value 1 and then value 2 (same identifier 0) silently replaces the stored
value 1 by 2 instead of failing. -/
theorem vertex_readd_overwrites_silently :
    lookup ((((newDirected (fun _ => 0) ⟨false⟩ : Directed Nat Nat).Vertex 1)).vertices) 0
        = some 1
    ∧ lookup (((((newDirected (fun _ => 0) ⟨false⟩ : Directed Nat Nat).Vertex 1)).Vertex 2).vertices) 0
        = some 2 := by
  constructor <;> rfl

/-- C2: `WeightedEdgeByHashes` fails with the source/target not-found errors
when an endpoint is absent, with the already-exists error when the ordered
pair has an edge, with the would-create-cycle error when acyclic enforcement
is on and the pre-check reports a cycle, and otherwise succeeds and inserts
the edge into the edge map and both the forward and reverse indices. -/
theorem weightedEdgeByHashes_cases [DecidableEq K] (d : Directed K T)
    (s t : K) (w : Int) :
    (lookup d.vertices s = none →
      d.WeightedEdgeByHashes s t w = (d, some (.sourceNotFound s)))
    ∧ (∀ vs, lookup d.vertices s = some vs → lookup d.vertices t = none →
      d.WeightedEdgeByHashes s t w = (d, some (.targetNotFound t)))
    ∧ (∀ vs vt, lookup d.vertices s = some vs → lookup d.vertices t = some vt →
      (d.GetEdgeByHashes s t).isSome →
      d.WeightedEdgeByHashes s t w = (d, some (.edgeAlreadyExists s t)))
    ∧ (∀ vs vt, lookup d.vertices s = some vs → lookup d.vertices t = some vt →
      d.GetEdgeByHashes s t = none → d.properties.isAcyclic = true →
      d.CreatesCycleByHashes s t = (true, none) →
      d.WeightedEdgeByHashes s t w = (d, some (.wouldCreateCycle s t)))
    ∧ (∀ vs vt, lookup d.vertices s = some vs → lookup d.vertices t = some vt →
      d.GetEdgeByHashes s t = none →
      (d.properties.isAcyclic = false ∨ d.CreatesCycleByHashes s t = (false, none)) →
      d.WeightedEdgeByHashes s t w
          = (d.addEdge s t { Source := vs, Target := vt, Weight := w }, none)
      ∧ lookup2 (d.WeightedEdgeByHashes s t w).1.edges s t
          = some { Source := vs, Target := vt, Weight := w }
      ∧ lookup2 (d.WeightedEdgeByHashes s t w).1.outEdges s t
          = some { Source := vs, Target := vt, Weight := w }
      ∧ lookup2 (d.WeightedEdgeByHashes s t w).1.inEdges t s
          = some { Source := vs, Target := vt, Weight := w }) := by
  refine ⟨?_, ?_, ?_, ?_, ?_⟩
  · intro hs
    simp [Directed.WeightedEdgeByHashes, hs]
  · intro vs hs ht
    simp [Directed.WeightedEdgeByHashes, hs, ht]
  · intro vs vt hs ht hge
    simp [Directed.WeightedEdgeByHashes, hs, ht, hge]
  · intro vs vt hs ht hge hac hcc
    simp [Directed.WeightedEdgeByHashes, hs, ht, hge, hac, hcc]
  · intro vs vt hs ht hge hor
    have hmain : d.WeightedEdgeByHashes s t w
        = (d.addEdge s t { Source := vs, Target := vt, Weight := w }, none) := by
      rcases hor with hac | hcc
      · simp [Directed.WeightedEdgeByHashes, hs, ht, hge, hac]
      · by_cases hac : d.properties.isAcyclic
        · simp [Directed.WeightedEdgeByHashes, hs, ht, hge, hac, hcc]
        · simp [Directed.WeightedEdgeByHashes, hs, ht, hge, hac]
    refine ⟨hmain, ?_, ?_, ?_⟩ <;> rw [hmain]
    · exact addEdge_lookup_edges d s t _
    · exact addEdge_lookup_out d s t _
    · exact addEdge_lookup_in d s t _

def twoVertexGraph : Directed Nat Nat :=
  { hash := id, properties := ⟨false⟩,
    vertices := [(1, 1), (2, 2)],
    edges := [], outEdges := [], inEdges := [] }

theorem weightedEdgeByHashes_cases_witness :
    ((twoVertexGraph.WeightedEdgeByHashes 9 2 0
        = (twoVertexGraph, some (.sourceNotFound 9)))
    ∧ (twoVertexGraph.WeightedEdgeByHashes 1 9 0
        = (twoVertexGraph, some (.targetNotFound 9)))
    ∧ (twoVertexGraph.WeightedEdgeByHashes 1 2 7
        = (twoVertexGraph.addEdge 1 2 { Source := 1, Target := 2, Weight := 7 }, none))
    ∧ lookup2 (twoVertexGraph.WeightedEdgeByHashes 1 2 7).1.outEdges 1 2
        = some { Source := 1, Target := 2, Weight := 7 }
    ∧ lookup2 (twoVertexGraph.WeightedEdgeByHashes 1 2 7).1.inEdges 2 1
        = some { Source := 1, Target := 2, Weight := 7 }) := by
  refine ⟨?_, ?_, ?_, ?_, ?_⟩
  · exact (weightedEdgeByHashes_cases twoVertexGraph 9 2 0).1 (by rfl)
  · exact (weightedEdgeByHashes_cases twoVertexGraph 1 9 0).2.1 1 (by rfl) (by rfl)
  · exact ((weightedEdgeByHashes_cases twoVertexGraph 1 2 7).2.2.2.2 1 2
      (by rfl) (by rfl) (by rfl) (Or.inl (by rfl))).1
  · exact ((weightedEdgeByHashes_cases twoVertexGraph 1 2 7).2.2.2.2 1 2
      (by rfl) (by rfl) (by rfl) (Or.inl (by rfl))).2.2.1
  · exact ((weightedEdgeByHashes_cases twoVertexGraph 1 2 7).2.2.2.2 1 2
      (by rfl) (by rfl) (by rfl) (Or.inl (by rfl))).2.2.2

/-- C3: whenever `WeightedEdgeByHashes` reports an error, the engine state it
returns is exactly the state before the call — vertex map, edge map and both
adjacency indices included — so no partial update is observable. -/
theorem weightedEdgeByHashes_error_no_mutation [DecidableEq K]
    (d : Directed K T) (s t : K) (w : Int)
    (h : (d.WeightedEdgeByHashes s t w).2 ≠ none) :
    (d.WeightedEdgeByHashes s t w).1 = d := by
  cases hs : lookup d.vertices s with
  | none => simp [Directed.WeightedEdgeByHashes, hs]
  | some vs =>
    cases ht : lookup d.vertices t with
    | none => simp [Directed.WeightedEdgeByHashes, hs, ht]
    | some vt =>
      by_cases hge : (d.GetEdgeByHashes s t).isSome
      · simp [Directed.WeightedEdgeByHashes, hs, ht, hge]
      · by_cases hac : d.properties.isAcyclic
        · rcases hcc : d.CreatesCycleByHashes s t with ⟨b, oe⟩
          cases oe with
          | some e => simp [Directed.WeightedEdgeByHashes, hs, ht, hge, hac, hcc]
          | none =>
            cases b with
            | true => simp [Directed.WeightedEdgeByHashes, hs, ht, hge, hac, hcc]
            | false =>
              exfalso
              apply h
              simp [Directed.WeightedEdgeByHashes, hs, ht, hge, hac, hcc]
        · exfalso
          apply h
          simp [Directed.WeightedEdgeByHashes, hs, ht, hge, hac]

theorem weightedEdgeByHashes_error_no_mutation_witness :
    (twoVertexGraph.WeightedEdgeByHashes 9 2 0).1 = twoVertexGraph :=
  weightedEdgeByHashes_error_no_mutation twoVertexGraph 9 2 0 (by
    intro hcontra
    simp [Directed.WeightedEdgeByHashes, twoVertexGraph, lookup] at hcontra)

/-- C6: started at an identifier absent from the vertex set, both DFS and BFS
fail with the not-found error and their callback-invocation trace is empty:
the visit callback is never invoked. -/
theorem traversals_missing_start [DecidableEq K] [Inhabited T]
    (d : Directed K T) (h : K) (visit : T → Bool)
    (hnone : lookup d.vertices h = none) :
    d.DFSByHash h visit = ([], some (.startNotFound h))
    ∧ d.BFSByHash h visit = ([], some (.startNotFound h)) := by
  constructor
  · unfold Directed.DFSByHash
    rw [hnone]
  · unfold Directed.BFSByHash
    rw [hnone]

theorem traversals_missing_start_witness :
    (twoVertexGraph.DFSByHash 9 (fun _ => false)
        = ([], some (.startNotFound 9)))
    ∧ (twoVertexGraph.BFSByHash 9 (fun _ => false)
        = ([], some (.startNotFound 9))) :=
  traversals_missing_start twoVertexGraph 9 (fun _ => false) (by rfl)

/-- C7: for a present identifier, `DegreeByHash` returns the entry count of
the reverse (in) index plus the entry count of the forward (out) index (a
missing inner map counting 0) with no error; for an absent identifier it
fails with the not-found error. -/
theorem degreeByHash_spec [DecidableEq K] (d : Directed K T) (h : K) :
    (∀ v, lookup d.vertices h = some v →
      d.DegreeByHash h =
        ((match lookup d.inEdges h with
            | none => 0
            | some inner => inner.length)
          + (match lookup d.outEdges h with
            | none => 0
            | some inner => inner.length), none))
    ∧ (lookup d.vertices h = none →
      d.DegreeByHash h = (0, some (.vertexNotFound h))) := by
  constructor
  · intro v hv
    unfold Directed.DegreeByHash
    rw [hv]
    cases hin : lookup d.inEdges h <;> cases hout : lookup d.outEdges h <;> simp
  · intro hnone
    unfold Directed.DegreeByHash
    rw [hnone]

def pathGraph123 : Directed Nat Nat :=
  { hash := id, properties := ⟨true⟩,
    vertices := [(1, 1), (2, 2), (3, 3)],
    edges := [(1, [(2, ⟨1, 2, 0⟩)]), (2, [(3, ⟨2, 3, 0⟩)])],
    outEdges := [(1, [(2, ⟨1, 2, 0⟩)]), (2, [(3, ⟨2, 3, 0⟩)])],
    inEdges := [(2, [(1, ⟨1, 2, 0⟩)]), (3, [(2, ⟨2, 3, 0⟩)])] }

theorem degreeByHash_spec_witness :
    pathGraph123.DegreeByHash 2 = (2, none)
    ∧ pathGraph123.DegreeByHash 9 = (0, some (.vertexNotFound 9)) :=
  ⟨(degreeByHash_spec pathGraph123 2).1 2 (by rfl),
   (degreeByHash_spec pathGraph123 9).2 (by rfl)⟩

/-- C8: the cycle pre-check returns an error exactly when the source or the
target identifier is absent from the vertex set (the Go method is a pure
read: it touches none of the engine's maps, so the graph is unchanged by
construction in this embedding). -/
theorem createsCycle_error_iff_missing [DecidableEq K] (d : Directed K T)
    (s t : K) :
    (d.CreatesCycleByHashes s t).2.isSome = true
      ↔ (lookup d.vertices s = none ∨ lookup d.vertices t = none) := by
  unfold Directed.CreatesCycleByHashes
  cases hs : lookup d.vertices s with
  | none => simp
  | some vs =>
    cases ht : lookup d.vertices t with
    | none => simp
    | some vt =>
      by_cases hst : s = t <;> simp [hst]

/-- C10: after a successful directed insert of (s,t) into a graph with no
(t,s) edge, lookup is orientation-sensitive — `GetEdgeByHashes s t` returns
the stored edge while `GetEdgeByHashes t s` still reports absence. -/
theorem getEdge_orientation_sensitive [DecidableEq K] (d : Directed K T)
    (s t : K) (w : Int) (d' : Directed K T) (vs vt : T)
    (hne : t ≠ s)
    (hvs : lookup d.vertices s = some vs)
    (hvt : lookup d.vertices t = some vt)
    (hts : d.GetEdgeByHashes t s = none)
    (hadd : d.WeightedEdgeByHashes s t w = (d', none)) :
    d'.GetEdgeByHashes s t = some { Source := vs, Target := vt, Weight := w }
    ∧ d'.GetEdgeByHashes t s = none := by
  have hd' : d' = d.addEdge s t { Source := vs, Target := vt, Weight := w } := by
    unfold Directed.WeightedEdgeByHashes at hadd
    rw [hvs, hvt] at hadd
    by_cases hge : (d.GetEdgeByHashes s t).isSome
    · simp [hge] at hadd
    · simp only [hge, Bool.false_eq_true, if_false] at hadd
      by_cases hac : d.properties.isAcyclic
      · simp only [hac, if_true] at hadd
        rcases hcc : d.CreatesCycleByHashes s t with ⟨b, oe⟩
        rw [hcc] at hadd
        cases oe with
        | some e => simp at hadd
        | none =>
          cases b with
          | true => simp at hadd
          | false => exact (Prod.mk.injEq .. ▸ hadd).1.symm
      · simp only [hac, Bool.false_eq_true, if_false] at hadd
        exact (Prod.mk.injEq .. ▸ hadd).1.symm
  subst hd'
  constructor
  · rw [getEdgeByHashes_eq_lookup2]
    exact addEdge_lookup_edges d s t _
  · rw [getEdgeByHashes_eq_lookup2]
    show lookup2 (setKey d.edges s _) t s = none
    unfold lookup2
    rw [lookup_setKey_ne _ _ _ _ hne]
    rw [getEdgeByHashes_eq_lookup2] at hts
    unfold lookup2 at hts
    cases hlt : lookup d.edges t with
    | none => rfl
    | some innerT =>
      rw [hlt] at hts
      exact hts

theorem getEdge_orientation_sensitive_witness :
    ((twoVertexGraph.WeightedEdgeByHashes 1 2 5).1.GetEdgeByHashes 1 2
        = some { Source := 1, Target := 2, Weight := 5 })
    ∧ (twoVertexGraph.WeightedEdgeByHashes 1 2 5).1.GetEdgeByHashes 2 1 = none :=
  getEdge_orientation_sensitive twoVertexGraph 1 2 5
    (twoVertexGraph.WeightedEdgeByHashes 1 2 5).1 1 2
    (by decide) (by rfl) (by rfl) (by rfl) (by rfl)

theorem predReach_mem_closed [DecidableEq K] (d : Directed K T) (S : List K)
    (hS : ∀ v ∈ S, ∀ p ∈ d.predecessors v, p ∈ S)
    {x y : K} (hx : x ∈ S) (h : PredReach d x y) : y ∈ S := by
  induction h with
  | refl => exact hx
  | tail _ hbc ih => exact hS _ ih _ hbc

theorem cycleLoop_true_iff [DecidableEq K] (d : Directed K T) (t : K) :
    ∀ (stack visited : List K),
      (∀ v ∈ visited, ∀ p ∈ d.predecessors v, p ∈ visited ∨ p ∈ stack) →
      t ∉ visited →
      (cycleLoop d t stack visited = true
        ↔ ∃ x, (x ∈ stack ∨ x ∈ visited) ∧ PredReach d x t) := by
  intro stack visited
  induction stack, visited using cycleLoop.induct d t with
  | case1 visited =>
    intro hclosed ht
    simp only [cycleLoop, Bool.false_eq_true, false_iff]
    rintro ⟨x, hx | hx, hreach⟩
    · exact List.not_mem_nil x hx
    · have hcl : ∀ v ∈ visited, ∀ p ∈ d.predecessors v, p ∈ visited := by
        intro v hv p hp
        rcases hclosed v hv p hp with h1 | h1
        · exact h1
        · exact absurd h1 (List.not_mem_nil p)
      exact ht (predReach_mem_closed d visited hcl hx hreach)
  | case2 c stack visited hv ih =>
    intro hclosed ht
    have hclosed' : ∀ v ∈ visited, ∀ p ∈ d.predecessors v,
        p ∈ visited ∨ p ∈ stack := by
      intro v hvv p hp
      rcases hclosed v hvv p hp with h1 | h1
      · exact Or.inl h1
      · rcases List.mem_cons.mp h1 with h1 | h1
        · exact Or.inl (h1 ▸ hv)
        · exact Or.inr h1
    rw [cycleLoop, dif_pos hv, ih hclosed' ht]
    constructor
    · rintro ⟨x, hx, hr⟩
      rcases hx with hx | hx
      · exact ⟨x, Or.inl (List.mem_cons_of_mem _ hx), hr⟩
      · exact ⟨x, Or.inr hx, hr⟩
    · rintro ⟨x, hx, hr⟩
      rcases hx with hx | hx
      · rcases List.mem_cons.mp hx with hx | hx
        · exact ⟨x, Or.inr (hx ▸ hv), hr⟩
        · exact ⟨x, Or.inl hx, hr⟩
      · exact ⟨x, Or.inr hx, hr⟩
  | case3 stack visited hnv =>
    intro _ _
    rw [cycleLoop, dif_neg hnv, dif_pos rfl]
    simp only [true_iff]
    exact ⟨t, Or.inl (List.mem_cons_self _ _), Relation.ReflTransGen.refl⟩
  | case4 c stack visited hv hne ih =>
    intro hclosed ht
    have hclosed' : ∀ v ∈ c :: visited, ∀ p ∈ d.predecessors v,
        p ∈ c :: visited ∨ p ∈ d.predecessors c ++ stack := by
      intro v hvv p hp
      rcases List.mem_cons.mp hvv with hvc | hvv
      · subst hvc
        exact Or.inr (List.mem_append_left _ hp)
      · rcases hclosed v hvv p hp with h1 | h1
        · exact Or.inl (List.mem_cons_of_mem _ h1)
        · rcases List.mem_cons.mp h1 with h1 | h1
          · exact Or.inl (h1 ▸ List.mem_cons_self _ _)
          · exact Or.inr (List.mem_append_right _ h1)
    have ht' : t ∉ c :: visited := by
      intro hmem
      rcases List.mem_cons.mp hmem with h1 | h1
      · exact hne h1.symm
      · exact ht h1
    rw [cycleLoop, dif_neg hv, dif_neg hne, ih hclosed' ht']
    constructor
    · rintro ⟨x, hx, hr⟩
      rcases hx with hx | hx
      · rcases List.mem_append.mp hx with hx | hx
        · exact ⟨c, Or.inl (List.mem_cons_self _ _),
            Relation.ReflTransGen.head hx hr⟩
        · exact ⟨x, Or.inl (List.mem_cons_of_mem _ hx), hr⟩
      · rcases List.mem_cons.mp hx with hx | hx
        · exact ⟨c, Or.inl (List.mem_cons_self _ _), hx ▸ hr⟩
        · exact ⟨x, Or.inr hx, hr⟩
    · rintro ⟨x, hx, hr⟩
      rcases hx with hx | hx
      · rcases List.mem_cons.mp hx with hx | hx
        · exact ⟨x, Or.inr (hx ▸ List.mem_cons_self c visited), hr⟩
        · exact ⟨x, Or.inl (List.mem_append_right _ hx), hr⟩
      · exact ⟨x, Or.inr (List.mem_cons_of_mem _ hx), hr⟩

/-- C4: with both endpoints present, the cycle pre-check never errors, and it
reports a cycle exactly when the source equals the target or the target is
reachable from the source by following reverse-adjacency (predecessor) edges;
the final conjunct restates that reachability as the existence of a directed
path from the target to the source along the same recorded edges (the
transposed relation). -/
theorem createsCycle_iff_reach [DecidableEq K] (d : Directed K T) (s t : K)
    (vs vt : T) (hs : lookup d.vertices s = some vs)
    (ht : lookup d.vertices t = some vt) :
    (d.CreatesCycleByHashes s t).2 = none
    ∧ ((d.CreatesCycleByHashes s t).1 = true ↔ (s = t ∨ PredReach d s t))
    ∧ (PredReach d s t
        ↔ Relation.ReflTransGen (Function.swap (predStep d)) t s) := by
  refine ⟨?_, ?_, ?_⟩
  · unfold Directed.CreatesCycleByHashes
    rw [hs, ht]
    by_cases hst : s = t <;> simp [hst]
  · unfold Directed.CreatesCycleByHashes
    rw [hs, ht]
    by_cases hst : s = t
    · simp [hst]
    · simp only [if_neg hst]
      have hloop := cycleLoop_true_iff d t [s] []
        (by intro v hv; exact absurd hv (List.not_mem_nil v))
        (List.not_mem_nil t)
      rw [hloop]
      constructor
      · rintro ⟨x, hx | hx, hr⟩
        · rcases List.mem_cons.mp hx with hx | hx
          · exact Or.inr (hx ▸ hr)
          · exact absurd hx (List.not_mem_nil x)
        · exact absurd hx (List.not_mem_nil x)
      · rintro (hr | hr)
        · exact absurd hr hst
        · exact ⟨s, Or.inl (List.mem_cons_self _ _), hr⟩
  · exact (Relation.reflTransGen_swap).symm

theorem createsCycle_iff_reach_witness :
    (pathGraph123.CreatesCycleByHashes 3 1).2 = none
    ∧ ((pathGraph123.CreatesCycleByHashes 3 1).1 = true
        ↔ ((3 : Nat) = 1 ∨ PredReach pathGraph123 3 1))
    ∧ (PredReach pathGraph123 3 1
        ↔ Relation.ReflTransGen (Function.swap (predStep pathGraph123)) 1 3) :=
  createsCycle_iff_reach pathGraph123 3 1 3 1 (by rfl) (by rfl)

theorem outReach_mem_closed [DecidableEq K] (d : Directed K T) (S : List K)
    (hS : ∀ v ∈ S, ∀ n ∈ d.outNeighbors v, n ∈ S)
    {x y : K} (hx : x ∈ S) (h : OutReach d x y) : y ∈ S := by
  induction h with
  | refl => exact hx
  | tail _ hbc ih => exact hS _ ih _ hbc

theorem dfsLoop_not_visited [DecidableEq K] [Inhabited T] (d : Directed K T)
    (visit : T → Bool) :
    ∀ (stack visited : List K),
      ∀ x ∈ dfsLoop d visit stack visited, x ∉ visited := by
  intro stack visited
  induction stack, visited using dfsLoop.induct d visit with
  | case1 visited =>
    intro x hx
    simp [dfsLoop] at hx
  | case2 c stack visited hv ih =>
    intro x hx
    rw [dfsLoop, dif_pos hv] at hx
    exact ih x hx
  | case3 c stack visited hv hstop =>
    intro x hx
    rw [dfsLoop, dif_neg hv, if_pos hstop] at hx
    rcases List.mem_cons.mp hx with hx | hx
    · exact hx ▸ hv
    · exact absurd hx (List.not_mem_nil x)
  | case4 c stack visited hv hgo ih =>
    intro x hx
    rw [dfsLoop, dif_neg hv, if_neg hgo] at hx
    rcases List.mem_cons.mp hx with hx | hx
    · exact hx ▸ hv
    · intro hxv
      exact ih x hx (List.mem_cons_of_mem _ hxv)

theorem dfsLoop_nodup [DecidableEq K] [Inhabited T] (d : Directed K T)
    (visit : T → Bool) :
    ∀ (stack visited : List K), (dfsLoop d visit stack visited).Nodup := by
  intro stack visited
  induction stack, visited using dfsLoop.induct d visit with
  | case1 visited => simp [dfsLoop]
  | case2 c stack visited hv ih =>
    rw [dfsLoop, dif_pos hv]
    exact ih
  | case3 c stack visited hv hstop =>
    rw [dfsLoop, dif_neg hv, if_pos hstop]
    exact List.nodup_singleton c
  | case4 c stack visited hv hgo ih =>
    rw [dfsLoop, dif_neg hv, if_neg hgo]
    refine List.nodup_cons.mpr ⟨?_, ih⟩
    intro hmem
    exact dfsLoop_not_visited d visit _ _ c hmem (List.mem_cons_self _ _)

theorem dfsLoop_mem_of_stack [DecidableEq K] [Inhabited T] (d : Directed K T)
    (visit : T → Bool) (S : Finset K)
    (hS : ∀ v, ∀ n ∈ d.outNeighbors v, n ∈ S) :
    ∀ (stack visited : List K), (∀ x ∈ stack, x ∈ S) →
      ∀ x ∈ dfsLoop d visit stack visited, x ∈ S := by
  intro stack visited
  induction stack, visited using dfsLoop.induct d visit with
  | case1 visited =>
    intro _ x hx
    simp [dfsLoop] at hx
  | case2 c stack visited hv ih =>
    intro hstack x hx
    rw [dfsLoop, dif_pos hv] at hx
    exact ih (fun y hy => hstack y (List.mem_cons_of_mem _ hy)) x hx
  | case3 c stack visited hv hstop =>
    intro hstack x hx
    rw [dfsLoop, dif_neg hv, if_pos hstop] at hx
    rcases List.mem_cons.mp hx with hx | hx
    · exact hx ▸ hstack c (List.mem_cons_self _ _)
    · exact absurd hx (List.not_mem_nil x)
  | case4 c stack visited hv hgo ih =>
    intro hstack x hx
    rw [dfsLoop, dif_neg hv, if_neg hgo] at hx
    rcases List.mem_cons.mp hx with hx | hx
    · exact hx ▸ hstack c (List.mem_cons_self _ _)
    · refine ih ?_ x hx
      intro y hy
      rcases List.mem_append.mp hy with hy | hy
      · exact hS c y hy
      · exact hstack y (List.mem_cons_of_mem _ hy)

theorem dfsLoopF_mem_iff [DecidableEq K] [Inhabited T] (d : Directed K T) :
    ∀ (stack visited : List K),
      (∀ v ∈ visited, ∀ n ∈ d.outNeighbors v, n ∈ visited ∨ n ∈ stack) →
      ∀ z, (z ∈ dfsLoop d (fun _ => false) stack visited ∨ z ∈ visited)
        ↔ ∃ x, (x ∈ stack ∨ x ∈ visited) ∧ OutReach d x z := by
  intro stack visited
  induction stack, visited using dfsLoop.induct d (fun _ => false) with
  | case1 visited =>
    intro hclosed z
    simp only [dfsLoop, List.not_mem_nil, false_or]
    constructor
    · intro hz
      exact ⟨z, hz, Relation.ReflTransGen.refl⟩
    · rintro ⟨x, hx, hr⟩
      have hcl : ∀ v ∈ visited, ∀ n ∈ d.outNeighbors v, n ∈ visited := by
        intro v hv n hn
        rcases hclosed v hv n hn with h1 | h1
        · exact h1
        · exact absurd h1 (List.not_mem_nil n)
      exact outReach_mem_closed d visited hcl hx hr
  | case2 c stack visited hv ih =>
    intro hclosed z
    have hclosed' : ∀ v ∈ visited, ∀ n ∈ d.outNeighbors v,
        n ∈ visited ∨ n ∈ stack := by
      intro v hvv n hn
      rcases hclosed v hvv n hn with h1 | h1
      · exact Or.inl h1
      · rcases List.mem_cons.mp h1 with h1 | h1
        · exact Or.inl (h1 ▸ hv)
        · exact Or.inr h1
    rw [dfsLoop, dif_pos hv, ih hclosed' z]
    constructor
    · rintro ⟨x, hx, hr⟩
      rcases hx with hx | hx
      · exact ⟨x, Or.inl (List.mem_cons_of_mem _ hx), hr⟩
      · exact ⟨x, Or.inr hx, hr⟩
    · rintro ⟨x, hx, hr⟩
      rcases hx with hx | hx
      · rcases List.mem_cons.mp hx with hx | hx
        · exact ⟨x, Or.inr (hx ▸ hv), hr⟩
        · exact ⟨x, Or.inl hx, hr⟩
      · exact ⟨x, Or.inr hx, hr⟩
  | case3 c stack visited hv hstop =>
    intro hclosed z
    simp at hstop
  | case4 c stack visited hv hgo ih =>
    intro hclosed z
    have hclosed' : ∀ v ∈ c :: visited, ∀ n ∈ d.outNeighbors v,
        n ∈ c :: visited ∨ n ∈ d.outNeighbors c ++ stack := by
      intro v hvv n hn
      rcases List.mem_cons.mp hvv with hvc | hvv
      · subst hvc
        exact Or.inr (List.mem_append_left _ hn)
      · rcases hclosed v hvv n hn with h1 | h1
        · exact Or.inl (List.mem_cons_of_mem _ h1)
        · rcases List.mem_cons.mp h1 with h1 | h1
          · exact Or.inl (h1 ▸ List.mem_cons_self _ _)
          · exact Or.inr (List.mem_append_right _ h1)
    rw [dfsLoop, dif_neg hv, if_neg hgo]
    have hih := ih hclosed' z
    constructor
    · intro hz
      rcases hz with hz | hz
      · rcases List.mem_cons.mp hz with hz | hz
        · exact ⟨c, Or.inl (List.mem_cons_self _ _), hz ▸ Relation.ReflTransGen.refl⟩
        · rcases hih.mp (Or.inl hz) with ⟨x, hx, hr⟩
          rcases hx with hx | hx
          · rcases List.mem_append.mp hx with hx | hx
            · exact ⟨c, Or.inl (List.mem_cons_self _ _),
                Relation.ReflTransGen.head hx hr⟩
            · exact ⟨x, Or.inl (List.mem_cons_of_mem _ hx), hr⟩
          · rcases List.mem_cons.mp hx with hx | hx
            · exact ⟨c, Or.inl (List.mem_cons_self _ _), hx ▸ hr⟩
            · exact ⟨x, Or.inr hx, hr⟩
      · exact ⟨z, Or.inr hz, Relation.ReflTransGen.refl⟩
    · rintro ⟨x, hx, hr⟩
      have hmem : z ∈ dfsLoop d (fun _ => false) (d.outNeighbors c ++ stack)
          (c :: visited) ∨ z ∈ c :: visited := by
        apply hih.mpr
        rcases hx with hx | hx
        · rcases List.mem_cons.mp hx with hx | hx
          · exact ⟨x, Or.inr (hx ▸ List.mem_cons_self c visited), hr⟩
          · exact ⟨x, Or.inl (List.mem_append_right _ hx), hr⟩
        · exact ⟨x, Or.inr (List.mem_cons_of_mem _ hx), hr⟩
      rcases hmem with hmem | hmem
      · exact Or.inl (List.mem_cons_of_mem _ hmem)
      · rcases List.mem_cons.mp hmem with hmem | hmem
        · exact Or.inl (hmem ▸ List.mem_cons_self _ _)
        · exact Or.inr hmem

theorem bfsLoop_mem_of [DecidableEq K] [Inhabited T] (d : Directed K T)
    (visit : T → Bool) :
    ∀ (queue visited : List K),
      ∀ x ∈ bfsLoop d visit queue visited, x ∈ queue ∨ x ∉ visited := by
  intro queue visited
  induction queue, visited using bfsLoop.induct d visit with
  | case1 visited =>
    intro x hx
    simp [bfsLoop] at hx
  | case2 c stack visited hstop =>
    intro x hx
    rw [bfsLoop, if_pos hstop] at hx
    rcases List.mem_cons.mp hx with hx | hx
    · exact Or.inl (by rw [hx]; exact List.mem_cons_self _ _)
    · exact absurd hx (List.not_mem_nil x)
  | case3 c stack visited hgo ih =>
    intro x hx
    rw [bfsLoop, if_neg hgo] at hx
    rcases List.mem_cons.mp hx with hx | hx
    · exact Or.inl (by rw [hx]; exact List.mem_cons_self _ _)
    · rcases ih x hx with h1 | h1
      · rcases List.mem_append.mp h1 with h1 | h1
        · exact Or.inl (List.mem_cons_of_mem _ h1)
        · exact Or.inr (newKeys_not_visited _ _ x h1)
      · exact Or.inr (fun hxv => h1 (List.mem_append_left _ hxv))

theorem bfsLoop_nodup [DecidableEq K] [Inhabited T] (d : Directed K T)
    (visit : T → Bool) :
    ∀ (queue visited : List K), queue.Nodup → (∀ x ∈ queue, x ∈ visited) →
      (bfsLoop d visit queue visited).Nodup := by
  intro queue visited
  induction queue, visited using bfsLoop.induct d visit with
  | case1 visited =>
    intro _ _
    simp [bfsLoop]
  | case2 c stack visited hstop =>
    intro _ _
    rw [bfsLoop, if_pos hstop]
    exact List.nodup_singleton c
  | case3 c stack visited hgo ih =>
    intro hnd hq
    rw [bfsLoop, if_neg hgo]
    have hnd' : (stack ++ newKeys visited (d.outNeighbors c)).Nodup := by
      rcases List.nodup_cons.mp hnd with ⟨hc, hst⟩
      refine List.Nodup.append hst (newKeys_nodup _ _) ?_
      intro a ha hna
      exact newKeys_not_visited _ _ a hna (hq a (List.mem_cons_of_mem _ ha))
    have hq' : ∀ x ∈ stack ++ newKeys visited (d.outNeighbors c),
        x ∈ visited ++ newKeys visited (d.outNeighbors c) := by
      intro x hx
      rcases List.mem_append.mp hx with hx | hx
      · exact List.mem_append_left _ (hq x (List.mem_cons_of_mem _ hx))
      · exact List.mem_append_right _ hx
    refine List.nodup_cons.mpr ⟨?_, ih hnd' hq'⟩
    intro hmem
    rcases bfsLoop_mem_of d visit _ _ c hmem with h1 | h1
    · rcases List.mem_append.mp h1 with h1 | h1
      · exact (List.nodup_cons.mp hnd).1 h1
      · exact newKeys_not_visited _ _ c h1 (hq c (List.mem_cons_self _ _))
    · exact h1 (List.mem_append_left _ (hq c (List.mem_cons_self _ _)))

theorem bfsLoop_mem_of_queue [DecidableEq K] [Inhabited T] (d : Directed K T)
    (visit : T → Bool) (S : Finset K)
    (hS : ∀ v, ∀ n ∈ d.outNeighbors v, n ∈ S) :
    ∀ (queue visited : List K), (∀ x ∈ queue, x ∈ S) →
      ∀ x ∈ bfsLoop d visit queue visited, x ∈ S := by
  intro queue visited
  induction queue, visited using bfsLoop.induct d visit with
  | case1 visited =>
    intro _ x hx
    simp [bfsLoop] at hx
  | case2 c stack visited hstop =>
    intro hqS x hx
    rw [bfsLoop, if_pos hstop] at hx
    rcases List.mem_cons.mp hx with hx | hx
    · exact hx ▸ hqS c (List.mem_cons_self _ _)
    · exact absurd hx (List.not_mem_nil x)
  | case3 c stack visited hgo ih =>
    intro hqS x hx
    rw [bfsLoop, if_neg hgo] at hx
    rcases List.mem_cons.mp hx with hx | hx
    · exact hx ▸ hqS c (List.mem_cons_self _ _)
    · refine ih ?_ x hx
      intro y hy
      rcases List.mem_append.mp hy with hy | hy
      · exact hqS y (List.mem_cons_of_mem _ hy)
      · exact hS c y (newKeys_subset _ _ y hy)

theorem bfsLoopF_mem_all_queue [DecidableEq K] [Inhabited T] (d : Directed K T) :
    ∀ (queue visited : List K), ∀ x ∈ queue,
      x ∈ bfsLoop d (fun _ => false) queue visited := by
  intro queue visited
  induction queue, visited using bfsLoop.induct d (fun _ => false) with
  | case1 visited =>
    intro x hx
    exact absurd hx (List.not_mem_nil x)
  | case2 c stack visited hstop => simp at hstop
  | case3 c stack visited hgo ih =>
    intro x hx
    rw [bfsLoop, if_neg hgo]
    rcases List.mem_cons.mp hx with hx | hx
    · exact hx ▸ List.mem_cons_self _ _
    · exact List.mem_cons_of_mem _ (ih x (List.mem_append_left _ hx))

theorem bfsLoopF_mem_iff [DecidableEq K] [Inhabited T] (d : Directed K T) :
    ∀ (queue visited : List K),
      (∀ x ∈ queue, x ∈ visited) →
      (∀ v ∈ visited, v ∈ queue ∨ ∀ n ∈ d.outNeighbors v, n ∈ visited) →
      ∀ z, (z ∈ bfsLoop d (fun _ => false) queue visited ∨ z ∈ visited)
        ↔ ∃ x, x ∈ visited ∧ OutReach d x z := by
  intro queue visited
  induction queue, visited using bfsLoop.induct d (fun _ => false) with
  | case1 visited =>
    intro hq hclosed z
    simp only [bfsLoop, List.not_mem_nil, false_or]
    constructor
    · intro hz
      exact ⟨z, hz, Relation.ReflTransGen.refl⟩
    · rintro ⟨x, hx, hr⟩
      have hcl : ∀ v ∈ visited, ∀ n ∈ d.outNeighbors v, n ∈ visited := by
        intro v hv n hn
        rcases hclosed v hv with h1 | h1
        · exact absurd h1 (List.not_mem_nil v)
        · exact h1 n hn
      exact outReach_mem_closed d visited hcl hx hr
  | case2 c stack visited hstop => simp at hstop
  | case3 c stack visited hgo ih =>
    intro hq hclosed z
    have hcin : c ∈ visited := hq c (List.mem_cons_self _ _)
    have hq' : ∀ x ∈ stack ++ newKeys visited (d.outNeighbors c),
        x ∈ visited ++ newKeys visited (d.outNeighbors c) := by
      intro x hx
      rcases List.mem_append.mp hx with hx | hx
      · exact List.mem_append_left _ (hq x (List.mem_cons_of_mem _ hx))
      · exact List.mem_append_right _ hx
    have hclosed' : ∀ v ∈ visited ++ newKeys visited (d.outNeighbors c),
        v ∈ stack ++ newKeys visited (d.outNeighbors c)
          ∨ ∀ n ∈ d.outNeighbors v,
              n ∈ visited ++ newKeys visited (d.outNeighbors c) := by
      intro v hv
      rcases List.mem_append.mp hv with hv | hv
      · rcases hclosed v hv with h1 | h1
        · rcases List.mem_cons.mp h1 with h1 | h1
          · subst h1
            refine Or.inr ?_
            intro n hn
            rcases newKeys_complete (d.outNeighbors v) visited n hn with h2 | h2
            · exact List.mem_append_left _ h2
            · exact List.mem_append_right _ h2
          · exact Or.inl (List.mem_append_left _ h1)
        · exact Or.inr (fun n hn => List.mem_append_left _ (h1 n hn))
      · exact Or.inl (List.mem_append_right _ hv)
    have hih := ih hq' hclosed' z
    rw [bfsLoop, if_neg hgo]
    have hLHS : (z ∈ c :: bfsLoop d (fun _ => false)
          (stack ++ newKeys visited (d.outNeighbors c))
          (visited ++ newKeys visited (d.outNeighbors c)) ∨ z ∈ visited)
        ↔ (z ∈ bfsLoop d (fun _ => false)
          (stack ++ newKeys visited (d.outNeighbors c))
          (visited ++ newKeys visited (d.outNeighbors c))
          ∨ z ∈ visited ++ newKeys visited (d.outNeighbors c)) := by
      constructor
      · rintro (hz | hz)
        · rcases List.mem_cons.mp hz with hz | hz
          · exact Or.inr (List.mem_append_left _ (by rw [hz]; exact hcin))
          · exact Or.inl hz
        · exact Or.inr (List.mem_append_left _ hz)
      · rintro (hz | hz)
        · exact Or.inl (List.mem_cons_of_mem _ hz)
        · rcases List.mem_append.mp hz with hz | hz
          · exact Or.inr hz
          · exact Or.inl (List.mem_cons_of_mem _
              (bfsLoopF_mem_all_queue d _ _ z (List.mem_append_right _ hz)))
    have hRHS : (∃ x, x ∈ visited ∧ OutReach d x z)
        ↔ ∃ x, x ∈ visited ++ newKeys visited (d.outNeighbors c)
            ∧ OutReach d x z := by
      constructor
      · rintro ⟨x, hx, hr⟩
        exact ⟨x, List.mem_append_left _ hx, hr⟩
      · rintro ⟨x, hx, hr⟩
        rcases List.mem_append.mp hx with hx | hx
        · exact ⟨x, hx, hr⟩
        · exact ⟨c, hcin,
            Relation.ReflTransGen.head (newKeys_subset _ _ x hx) hr⟩
    rw [hLHS, hRHS]
    exact hih

/-- C5: with a visit callback that never requests a stop, DFS and BFS from an
existing start vertex both succeed, invoke the callback exactly on the
vertices reachable from the start along forward (outgoing) edges — never on
an unreachable vertex — and invoke it at most once per vertex (the invocation
trace has no duplicates). -/
theorem traversals_visit_reachable_exactly_once [DecidableEq K] [Inhabited T]
    (d : Directed K T) (start : K) (v : T)
    (hs : lookup d.vertices start = some v) :
    (d.DFSByHash start (fun _ => false)).2 = none
    ∧ (d.BFSByHash start (fun _ => false)).2 = none
    ∧ (∀ z, z ∈ (d.DFSByHash start (fun _ => false)).1 ↔ OutReach d start z)
    ∧ (∀ z, z ∈ (d.BFSByHash start (fun _ => false)).1 ↔ OutReach d start z)
    ∧ (d.DFSByHash start (fun _ => false)).1.Nodup
    ∧ (d.BFSByHash start (fun _ => false)).1.Nodup := by
  have hdfs : d.DFSByHash start (fun _ => false)
      = (dfsLoop d (fun _ => false) [start] [], none) := by
    unfold Directed.DFSByHash
    rw [hs]
  have hbfs : d.BFSByHash start (fun _ => false)
      = (bfsLoop d (fun _ => false) [start] [start], none) := by
    unfold Directed.BFSByHash
    rw [hs]
  rw [hdfs, hbfs]
  refine ⟨rfl, rfl, ?_, ?_, ?_, ?_⟩
  · intro z
    have h := dfsLoopF_mem_iff d [start] []
      (by intro v hv; exact absurd hv (List.not_mem_nil v)) z
    simpa using h
  · intro z
    have h := bfsLoopF_mem_iff d [start] [start]
      (by intro x hx; exact hx)
      (by intro v hv; exact Or.inl hv) z
    constructor
    · intro hz
      have hr := h.mp (Or.inl hz)
      simpa using hr
    · intro hr
      rcases h.mpr ⟨start, List.mem_cons_self _ _, hr⟩ with hz | hz
      · exact hz
      · have hzs : z = start := by simpa using hz
        rw [hzs]
        exact bfsLoopF_mem_all_queue d [start] [start] start
          (List.mem_cons_self _ _)
  · exact dfsLoop_nodup d (fun _ => false) [start] []
  · exact bfsLoop_nodup d (fun _ => false) [start] [start]
      (List.nodup_singleton start) (fun x hx => hx)

theorem traversals_visit_reachable_exactly_once_witness :
    (pathGraph123.DFSByHash 1 (fun _ => false)).2 = none
    ∧ (pathGraph123.BFSByHash 1 (fun _ => false)).2 = none
    ∧ (∀ z, z ∈ (pathGraph123.DFSByHash 1 (fun _ => false)).1
        ↔ OutReach pathGraph123 1 z)
    ∧ (∀ z, z ∈ (pathGraph123.BFSByHash 1 (fun _ => false)).1
        ↔ OutReach pathGraph123 1 z)
    ∧ (pathGraph123.DFSByHash 1 (fun _ => false)).1.Nodup
    ∧ (pathGraph123.BFSByHash 1 (fun _ => false)).1.Nodup :=
  traversals_visit_reachable_exactly_once pathGraph123 1 1 (by rfl)

/-- The total number of entries across the inner maps of the forward index:
the number of stored directed edges. -/
def Directed.outEntryCount [DecidableEq K] (d : Directed K T) : Nat :=
  (d.outEdges.flatMap (fun p => p.2.map Prod.fst)).length

/-- C9: for every finite graph and every visit callback (even one that never
requests a stop), the DFS and BFS loops terminate — they are total functions
in this embedding — and on success the trace of callback invocations is
duplicate-free and bounded in length by the number of stored edges plus one,
matching the worklist argument that every push is the start vertex or an
entry of the forward index and no vertex is processed twice. -/
theorem traversal_callback_bound [DecidableEq K] [Inhabited T]
    (d : Directed K T) (start : K) (visit : T → Bool) :
    (∀ tr, d.DFSByHash start visit = (tr, none) →
      tr.Nodup ∧ tr.length ≤ 1 + d.outEntryCount)
    ∧ (∀ tr, d.BFSByHash start visit = (tr, none) →
      tr.Nodup ∧ tr.length ≤ 1 + d.outEntryCount) := by
  have hboundS : ∀ v, ∀ n ∈ d.outNeighbors v, n ∈ insert start d.outKeys :=
    fun v n hn => Finset.mem_insert_of_mem (outNeighbors_subset_outKeys d v n hn)
  have hcard : (insert start d.outKeys).card ≤ 1 + d.outEntryCount := by
    calc (insert start d.outKeys).card ≤ d.outKeys.card + 1 :=
          Finset.card_insert_le _ _
      _ = 1 + d.outKeys.card := Nat.add_comm _ _
      _ ≤ 1 + d.outEntryCount := by
          refine Nat.add_le_add_left ?_ 1
          exact List.toFinset_card_le _
  have hlen : ∀ tr : List K, tr.Nodup →
      (∀ x ∈ tr, x ∈ insert start d.outKeys) →
      tr.length ≤ 1 + d.outEntryCount := by
    intro tr hnd hsub
    calc tr.length = tr.toFinset.card := (List.toFinset_card_of_nodup hnd).symm
      _ ≤ (insert start d.outKeys).card := by
          refine Finset.card_le_card ?_
          intro x hx
          exact hsub x (List.mem_toFinset.mp hx)
      _ ≤ 1 + d.outEntryCount := hcard
  constructor
  · intro tr htr
    cases hs : lookup d.vertices start with
    | none =>
      unfold Directed.DFSByHash at htr
      rw [hs] at htr
      exact absurd (congrArg Prod.snd htr) (by simp)
    | some v =>
      unfold Directed.DFSByHash at htr
      rw [hs] at htr
      have htr1 : tr = dfsLoop d visit [start] [] :=
        (congrArg Prod.fst htr).symm
      subst htr1
      refine ⟨dfsLoop_nodup d visit [start] [], ?_⟩
      refine hlen _ (dfsLoop_nodup d visit [start] []) ?_
      refine dfsLoop_mem_of_stack d visit (insert start d.outKeys) hboundS
        [start] [] ?_
      intro x hx
      have hxs : x = start := by simpa using hx
      rw [hxs]
      exact Finset.mem_insert_self _ _
  · intro tr htr
    cases hs : lookup d.vertices start with
    | none =>
      unfold Directed.BFSByHash at htr
      rw [hs] at htr
      exact absurd (congrArg Prod.snd htr) (by simp)
    | some v =>
      unfold Directed.BFSByHash at htr
      rw [hs] at htr
      have htr1 : tr = bfsLoop d visit [start] [start] :=
        (congrArg Prod.fst htr).symm
      subst htr1
      have hnd := bfsLoop_nodup d visit [start] [start]
        (List.nodup_singleton start) (fun x hx => hx)
      refine ⟨hnd, ?_⟩
      refine hlen _ hnd ?_
      refine bfsLoop_mem_of_queue d visit (insert start d.outKeys) hboundS
        [start] [start] ?_
      intro x hx
      have hxs : x = start := by simpa using hx
      rw [hxs]
      exact Finset.mem_insert_self _ _

theorem traversal_callback_bound_witness :
    ((pathGraph123.DFSByHash 1 (fun _ => false)).1.Nodup
      ∧ (pathGraph123.DFSByHash 1 (fun _ => false)).1.length
          ≤ 1 + pathGraph123.outEntryCount)
    ∧ ((pathGraph123.BFSByHash 1 (fun _ => false)).1.Nodup
      ∧ (pathGraph123.BFSByHash 1 (fun _ => false)).1.length
          ≤ 1 + pathGraph123.outEntryCount) := by
  have hdfs : pathGraph123.DFSByHash 1 (fun _ => false)
      = ((pathGraph123.DFSByHash 1 (fun _ => false)).1, none) := by
    unfold Directed.DFSByHash
    rfl
  have hbfs : pathGraph123.BFSByHash 1 (fun _ => false)
      = ((pathGraph123.BFSByHash 1 (fun _ => false)).1, none) := by
    unfold Directed.BFSByHash
    rfl
  exact ⟨(traversal_callback_bound pathGraph123 1 (fun _ => false)).1 _ hdfs,
         (traversal_callback_bound pathGraph123 1 (fun _ => false)).2 _ hbfs⟩

end GraphSpec
